import Mathlib

/-!
# Word-count client of the MapReduce library: keys, partitioning, statistics

A shallow embedding of `src/examples/wordcount/wordcount.cpp` and of the two
plain structs of `src/include/mapreduce.hpp`.

* A byte-slice key `std::pair<char const *, std::uintmax_t>` is a `Key`: the
  pointer is `none` (the null pointer) or `some m`, with `m` the bytes that
  can be read starting at the pointer; `second` is the length.
* Bytes are natural numbers (values of `unsigned char`).  `tolower` is the
  one of the "C" locale.
* `strncasecmp` follows the C library routine: it compares at most `n` bytes,
  and it stops after a NUL byte that both strings hold at the same place.
* `boost::hash_range` belongs to an external library; `hash_partitioner`
  takes it as a parameter, and `boost_hash_range` is the function as Boost
  documents it.
* A `std::chrono::duration<double>` is an exact rational number of seconds.
* Dereferencing an iterator that denotes no element is the result `none`.
* The job class and the comparators `less_2nd` and `greater_2nd` are declared
  in headers that are not among the sources; the functions that use them take
  them as parameters.  So does `main` take the C library `atoi`; `atoi_glibc`
  is the one of the GNU C library.
-/

namespace mapreduce

/-! ## Byte-slice keys -/

/-- The key type `std::pair<char const *, std::uintmax_t>`. -/
structure Key where
  /-- The member `first`: `none` is the null pointer, `some m` a pointer to the bytes `m`. -/
  first : Option (List Nat)
  /-- The member `second`: the number of bytes of the key. -/
  second : Nat
deriving DecidableEq, Repr

/-- The bytes readable through the pointer of a key (nothing through a null pointer). -/
def Key.mem (k : Key) : List Nat := k.first.getD []

/-- The byte range `[first, first + second)` of a key. -/
def Key.range (k : Key) : List Nat := k.mem.take k.second

/-- A key whose pointer is not null and whose `second` bytes are all readable. -/
def Key.valid (k : Key) : Prop := k.first ≠ none ∧ k.second ≤ k.mem.length

instance (k : Key) : Decidable k.valid := by unfold Key.valid; infer_instance

/-- Build the key that points at the bytes of a string literal, with its length. -/
def Key.ofString (s : String) : Key :=
  { first := some (s.toList.map Char.toNat), second := s.length }

/-- The `tolower` of the "C" locale on a byte: `A`..`Z` (65..90) go to `a`..`z`. -/
def tolower (c : Nat) : Nat := if 65 ≤ c ∧ c ≤ 90 then c + 32 else c

/-- The C library `strncasecmp(s1, s2, n)`: compare at most `n` bytes ignoring case; the value is the
difference of the first two lowered bytes that differ, and `0` when none differ before
`n` bytes were compared or before a NUL byte ended both strings.  A read past the
modelled bytes yields the terminator `0`. -/
def strncasecmp : List Nat → List Nat → Nat → Int
  | _, _, 0 => 0
  | s1, s2, n + 1 =>
    let c1 := s1.headD 0
    let c2 := s2.headD 0
    if tolower c1 ≠ tolower c2 then (tolower c1 : Int) - (tolower c2 : Int)
    else if c1 = 0 then 0
    else strncasecmp s1.tail s2.tail n

/-- The specialisation `std::less<std::pair<char const *, std::uintmax_t>>::operator()`
(wordcount.cpp lines 33-50). -/
def less (first second : Key) : Bool :=
  let len := min first.second second.second
  let cmp := strncasecmp first.mem second.mem len
  if cmp < 0 then true
  else if cmp > 0 then false
  else decide (first.second < second.second)

/-- The key equality `operator==` (wordcount.cpp lines 52-65). -/
def operator_eq (first second : Key) : Bool :=
  if first.second ≠ second.second then false
  else if first.second = 0 ∧ first.first = none ∧ second.first = none then true
  else decide (strncasecmp first.mem second.mem first.second = 0)

/-- The specialisation `mapreduce::hash_partitioner::operator()` (wordcount.cpp lines
68-72).  `hash_range` stands for `boost::hash_range` over the byte range of the key; the
remainder is converted to the return type `unsigned`. -/
def hash_partitioner (hash_range : List Nat → Nat) (key : Key) (partitions : Nat) : Nat :=
  (hash_range key.range % partitions) % 2 ^ 32

/-- Boost's `hash_value(char)`: the `char` converted to `std::size_t` (sign extended when
`char` is signed and the byte is above 127). -/
def hash_value (c : Nat) : Nat := if c < 128 then c else 2 ^ 64 - 256 + c % 256

/-- Boost's `hash_combine` as documented by Boost.ContainerHash:
`seed ^= hash_value(v) + 0x9e3779b9 + (seed << 6) + (seed >> 2)` on a 64-bit `std::size_t`. -/
def hash_combine (seed v : Nat) : Nat :=
  seed ^^^ ((hash_value v + 0x9e3779b9 + (seed <<< 6) + (seed >>> 2)) % 2 ^ 64)

/-- Boost's `hash_range(first, last)` as documented: fold `hash_combine` from seed `0`. -/
def boost_hash_range (bytes : List Nat) : Nat := bytes.foldl hash_combine 0

/-! ### Comparison as the specification words it -/

/-- Lexicographic "smaller than" on byte sequences (a proper initial segment is smaller). -/
def lex_lt : List Nat → List Nat → Bool
  | [], [] => false
  | [], _ :: _ => true
  | _ :: _, [] => false
  | a :: as, b :: bs => if a < b then true else if b < a then false else lex_lt as bs

/-- The first `n` bytes of a key, lowered: what "comparing the first n bytes
case-insensitively" looks at. -/
def lowered (k : Key) (n : Nat) : List Nat := (k.mem.take n).map tolower

/-- The comparison as the specification states it: over the first `min` bytes ignoring
case, with the length as the tiebreaker. -/
def spec_less (a b : Key) : Bool :=
  let n := min a.second b.second
  lex_lt (lowered a n) (lowered b n) || (lowered a n == lowered b n && decide (a.second < b.second))

/-- The bytes `strncasecmp` looks at in one string: the first `n`, up to the first NUL
byte, lowered. -/
def cstr (s : List Nat) (n : Nat) : List Nat :=
  ((s.take n).takeWhile (fun c => c ≠ 0)).map tolower

/-- The first `n` bytes of a key up to its first NUL byte, lowered. -/
def lowered_cstr (k : Key) (n : Nat) : List Nat := cstr k.mem n

/-- The comparison the code computes: as `spec_less`, with each key cut at its first NUL. -/
def cstr_less (a b : Key) : Bool :=
  let n := min a.second b.second
  lex_lt (lowered_cstr a n) (lowered_cstr b n) ||
    (lowered_cstr a n == lowered_cstr b n && decide (a.second < b.second))

/-- The canonical form of `n` bytes under the comparison: lowered bytes, and zeros from
the first NUL byte on.  Two keys compare under `less` as their canonical forms compare
lexicographically. -/
def normal : List Nat → Nat → List Nat
  | _, 0 => []
  | s, n + 1 =>
    if s.headD 0 = 0 then List.replicate (n + 1) 0
    else tolower (s.headD 0) :: normal s.tail n

/-- The canonical form of a key. -/
def Key.normal (k : Key) : List Nat := mapreduce.normal k.mem k.second

/-! ## The plain structs of `mapreduce.hpp` -/

/-- The struct `mapreduce::specification` (mapreduce.hpp lines 69-84); `unsigned` and
`std::uintmax_t` members are natural numbers. -/
structure specification where
  map_tasks : Nat
  reduce_tasks : Nat
  max_file_segment_size : Nat
  output_filespec : String
  input_directory : String
deriving DecidableEq, Repr

/-- The constructor `specification()`: its member initialisers; `input_directory` is not
named there and is a default-constructed (empty) `std::string`. -/
def specification.init : specification :=
  { map_tasks := 0
    reduce_tasks := 1
    max_file_segment_size := 1048576
    output_filespec := "mapreduce_"
    input_directory := "" }

/-- The struct `mapreduce::results::tag_counters` (mapreduce.hpp lines 88-117). -/
structure tag_counters where
  actual_map_tasks : Nat
  actual_reduce_tasks : Nat
  map_keys_executed : Nat
  map_key_errors : Nat
  map_keys_completed : Nat
  reduce_keys_executed : Nat
  reduce_key_errors : Nat
  reduce_keys_completed : Nat
  num_result_files : Nat
deriving DecidableEq, Repr

/-- The constructor `tag_counters()`: every counter starts at zero. -/
def tag_counters.init : tag_counters :=
  { actual_map_tasks := 0, actual_reduce_tasks := 0, map_keys_executed := 0,
    map_key_errors := 0, map_keys_completed := 0, reduce_keys_executed := 0,
    reduce_key_errors := 0, reduce_keys_completed := 0, num_result_files := 0 }

/-- The struct `mapreduce::results` (mapreduce.hpp lines 86-126).  A
`std::chrono::duration<double>` is its `count()` in seconds, taken as an exact rational. -/
structure results where
  counters : tag_counters
  job_runtime : ℚ
  map_runtime : ℚ
  shuffle_runtime : ℚ
  reduce_runtime : ℚ
  map_times : List ℚ
  shuffle_times : List ℚ
  reduce_times : List ℚ

/-! ## Statistics (`sum`, `write_stats`) -/

/-- The helper `sum` (wordcount.cpp lines 77-84): add up the `count()` of every duration,
starting from `0.0`.  The additions are exact, where those of `double` round. -/
def sum (durations : List ℚ) : ℚ := durations.foldl (fun acc chrono => acc + chrono) 0

/-- The call `std::min_element(v.begin(), v.end())` followed by `->`: the first smallest element;
`none` when the range is empty and the iterator returned is `end()`. -/
def min_element : List ℚ → Option ℚ
  | [] => none
  | x :: xs => some (xs.foldl (fun smallest y => if y < smallest then y else smallest) x)

/-- The call `std::max_element(v.begin(), v.end())` followed by `->`: the first largest element;
`none` when the range is empty. -/
def max_element : List ℚ → Option ℚ
  | [] => none
  | x :: xs => some (xs.foldl (fun largest y => if largest < y then y else largest) x)

/-- The three figures printed for the keys of one phase. -/
structure key_times where
  fastest : ℚ
  slowest : ℚ
  average : ℚ

/-- Everything `write_stats` prints, line by line. -/
structure stats_report where
  job_runtime : ℚ
  map_runtime : ℚ
  reduce_runtime : ℚ
  map_keys_executed : Nat
  map_keys_completed : Nat
  map_key_errors : Nat
  actual_map_tasks : Nat
  map_key_times : key_times
  reduce_keys_executed : Nat
  reduce_keys_completed : Nat
  reduce_key_errors : Nat
  actual_reduce_tasks : Nat
  num_result_files : Nat
  /-- The three reduce lines are printed only under `if (result.reduce_times.size() > 0)`. -/
  reduce_key_times : Option key_times

/-- The function `write_stats` (wordcount.cpp lines 86-113).  The result is `none` when
an iterator equal to `end()` is dereferenced. -/
def write_stats (result : results) : Option stats_report := do
  let map_fastest ← min_element result.map_times
  let map_slowest ← max_element result.map_times
  let map_average := sum result.map_times / (result.map_times.length : ℚ)
  let reduce_key_times ←
    if result.reduce_times.length > 0 then do
      let reduce_fastest ← min_element result.reduce_times
      let reduce_slowest ← max_element result.reduce_times
      let reduce_average := sum result.reduce_times / (result.map_times.length : ℚ)
      pure (some { fastest := reduce_fastest, slowest := reduce_slowest,
                   average := reduce_average : key_times })
    else pure none
  pure
    { job_runtime := result.job_runtime
      map_runtime := result.map_runtime
      reduce_runtime := result.reduce_runtime
      map_keys_executed := result.counters.map_keys_executed
      map_keys_completed := result.counters.map_keys_completed
      map_key_errors := result.counters.map_key_errors
      actual_map_tasks := result.counters.actual_map_tasks
      map_key_times := { fastest := map_fastest, slowest := map_slowest, average := map_average }
      reduce_keys_executed := result.counters.reduce_keys_executed
      reduce_keys_completed := result.counters.reduce_keys_completed
      reduce_key_errors := result.counters.reduce_key_errors
      actual_reduce_tasks := result.counters.actual_reduce_tasks
      num_result_files := result.counters.num_result_files
      reduce_key_times := reduce_key_times }

/-- The average a statistics report should show for a duration sequence: its sum divided
by its own number of elements. -/
def matched_average (durations : List ℚ) : ℚ := sum durations / (durations.length : ℚ)

/-- A results value with the given per-key durations and everything else zero. -/
def results.ofTimes (map_times reduce_times : List ℚ) : results :=
  { counters := tag_counters.init, job_runtime := 0, map_runtime := 0, shuffle_runtime := 0,
    reduce_runtime := 0, map_times := map_times, shuffle_times := [],
    reduce_times := reduce_times }

/-! ## The frequency table (`write_frequency_table`) -/

/-- The type `Job::keyvalue_t` of the word-count job: a key with its count. -/
abbrev keyvalue_t := Key × Nat

/-- The type of the comparators `mapreduce::detail::less_2nd` and
`mapreduce::detail::greater_2nd`.  Their header is not among the sources, so the
functions that call them take them as parameters. -/
abbrev comparator := keyvalue_t → keyvalue_t → Bool

/-- A comparator that orders pairs by `second` with `<`, as the name `less_2nd` says. -/
def second_less : comparator := fun a b => decide (a.2 < b.2)

/-- A comparator that orders pairs by `second` with `>`, as the name `greater_2nd` says. -/
def second_greater : comparator := fun a b => decide (a.2 > b.2)

/-- An iterator of the `std::list` called `frequencies`.  The list only grows at the back
and no node is ever erased, so a node is named by the position it was inserted at;
`past_end` is `end()`, which stays `end()` when the list grows. -/
inductive list_iterator where
  | node (i : Nat)
  | past_end
deriving DecidableEq, Repr

/-- A `std::reverse_iterator`: it stores the iterator `current` that follows the element
it denotes, and dereferencing yields `*std::prev(current)`. -/
structure reverse_iterator where
  current : list_iterator
deriving DecidableEq, Repr

/-- The call `frequencies.rbegin()`, which is `reverse_iterator(frequencies.end())`. -/
def rbegin (_frequencies : List keyvalue_t) : reverse_iterator := { current := .past_end }

/-- The position of the element a reverse iterator denotes in the list as it is now:
the one before `current`.  `none` when there is no such element. -/
def reverse_iterator.position (r : reverse_iterator) (frequencies : List keyvalue_t) :
    Option Nat :=
  match r.current with
  | .past_end => if frequencies.length = 0 then none else some (frequencies.length - 1)
  | .node i => if 0 < i ∧ i ≤ frequencies.length then some (i - 1) else none

/-- Dereference a reverse iterator (`*r`, `r->`). -/
def reverse_iterator.deref (r : reverse_iterator) (frequencies : List keyvalue_t) :
    Option keyvalue_t :=
  (r.position frequencies).bind (fun i => frequencies[i]?)

/-- Assign through a reverse iterator (`*r = v`). -/
def reverse_iterator.assign (r : reverse_iterator) (frequencies : List keyvalue_t)
    (v : keyvalue_t) : Option (List keyvalue_t) :=
  (r.position frequencies).map (fun i => frequencies.set i v)

/-- The position of the element that `std::min_element(l.rbegin(), l.rend(), comp)`
denotes: the range is walked from the back to the front and the candidate changes only
when `comp(*it, *smallest)` holds, so among equal smallest elements the one nearest to
the back is kept.  `none` for an empty list. -/
def min_position_reverse (comp : keyvalue_t → keyvalue_t → Bool) :
    List keyvalue_t → Option (Nat × keyvalue_t)
  | [] => none
  | x :: xs =>
    match min_position_reverse comp xs with
    | none => some (0, x)
    | some (k, smallest) => if comp x smallest then some (0, x) else some (k + 1, smallest)

/-- The call `std::min_element(frequencies.rbegin(), frequencies.rend(), comp)`: the
reverse iterator of the element found, whose `current` is the iterator after it. -/
def min_element_reverse (comp : keyvalue_t → keyvalue_t → Bool)
    (frequencies : List keyvalue_t) : reverse_iterator :=
  match min_position_reverse comp frequencies with
  | none => { current := .past_end }
  | some (k, _) =>
    if k + 1 = frequencies.length then { current := .past_end }
    else { current := .node (k + 1) }

/-- The local variables of `write_frequency_table` that the loop updates. -/
structure frequency_state where
  frequencies : List keyvalue_t
  it_smallest : reverse_iterator
deriving DecidableEq, Repr

/-- One turn of the loop `for (++it; it != ite; ++it)` (wordcount.cpp lines 133-150), with
`it` the pair the results iterator is at.  `none` when a reverse iterator that denotes no
element is dereferenced. -/
def frequency_step (less_2nd : comparator) (st : frequency_state) (it : keyvalue_t) :
    Option frequency_state :=
  if st.frequencies.length < 10 then do
    let frequencies := st.frequencies ++ [it]
    let smallest ← st.it_smallest.deref frequencies
    if it.2 < smallest.2 then
      pure { frequencies := frequencies, it_smallest := rbegin frequencies }
    else
      pure { frequencies := frequencies, it_smallest := st.it_smallest }
  else do
    let smallest ← st.it_smallest.deref st.frequencies
    if it.2 > smallest.2 then do
      let frequencies ← st.it_smallest.assign st.frequencies it
      pure { frequencies := frequencies,
             it_smallest := min_element_reverse less_2nd frequencies }
    else
      pure st

/-- The loop of `write_frequency_table` over the pairs still to come. -/
def frequency_loop (less_2nd : comparator) :
    List keyvalue_t → frequency_state → Option frequency_state
  | [], st => some st
  | it :: rest, st => (frequency_step less_2nd st it).bind (frequency_loop less_2nd rest)

/-- The call `frequencies.sort(comp)`: `std::list::sort` is stable, and a stable sort has one
result, computed here by insertion. -/
def list_sort (comp : keyvalue_t → keyvalue_t → Bool) (l : List keyvalue_t) :
    List keyvalue_t :=
  l.insertionSort (fun a b => comp b a = false)

/-- The function `write_frequency_table` (wordcount.cpp lines 122-157) on the sequence of
pairs that the results iterator of the job yields: the list it prints, in print order
(nothing is printed for an empty sequence). -/
def write_frequency_table (less_2nd greater_2nd : comparator) (job : List keyvalue_t) :
    Option (List keyvalue_t) :=
  match job with
  | [] => some []
  | first :: rest =>
    let frequencies := [first]
    let it_smallest := rbegin frequencies
    (frequency_loop less_2nd rest
        { frequencies := frequencies, it_smallest := it_smallest }).map
      (fun st => list_sort greater_2nd st.frequencies)

/-- The `n` largest counts of a sequence of pairs, largest first: the "top n". -/
def largest_counts (n : Nat) (job : List keyvalue_t) : List Nat :=
  ((job.map Prod.snd).insertionSort (fun a b => a ≥ b)).take n

/-- Result pairs for the given words and counts. -/
def pairs_of (l : List (String × Nat)) : List keyvalue_t :=
  l.map (fun p => (Key.ofString p.1, p.2))

/-! ## The driver (`run_wordcount`, `main`) -/

/-- What constructing the datasource, constructing the job and `job.run` come to for a
given specification: a `std::exception` was thrown (with its `what()`), or the job ran
and left its `results` and the pairs its results iterator yields.  The job class itself
is in a header that is not among the sources. -/
abbrev Job := specification → Except String (results × List keyvalue_t)

/-- What one call of `run_wordcount` writes to `std::cout` after the job's type name. -/
inductive wordcount_output where
  /-- The handler `catch (std::exception &e)` printed `Error: ` and `e.what()`. -/
  | error (what : String)
  /-- The job finished: the statistics and the frequency table were printed. -/
  | finished (stats : stats_report) (table : List keyvalue_t)

/-- The function `run_wordcount` (wordcount.cpp lines 159-185).  It returns normally
after a `std::exception`; `none` when `write_stats` or `write_frequency_table`
dereferences an iterator that denotes no element. -/
def run_wordcount (less_2nd greater_2nd : comparator) (job : Job) (spec : specification) :
    Option wordcount_output :=
  match job spec with
  | .error what => some (.error what)
  | .ok (result, pairs) => do
    let stats ← write_stats result
    let table ← write_frequency_table less_2nd greater_2nd pairs
    pure (.finished stats table)

/-- The `isspace` of the "C" locale: space, and the controls `\t \n \v \f \r` (9 to 13). -/
def isspace (c : Char) : Bool := c.toNat = 32 || (9 ≤ c.toNat && c.toNat ≤ 13)

/-- The value of the leading run of decimal digits, read from the left. -/
def strtol_digits : List Char → Nat → Nat
  | [], acc => acc
  | c :: cs, acc => if c.isDigit then strtol_digits cs (acc * 10 + (c.toNat - 48)) else acc

/-- The C library `strtol(s, NULL, 10)` with a 64-bit `long`: skip white space, take an
optional sign, read decimal digits; a value outside `long` becomes `LONG_MAX` or
`LONG_MIN`. -/
def strtol (s : String) : Int :=
  let value : Int :=
    match s.toList.dropWhile isspace with
    | '-' :: cs => - (strtol_digits cs 0 : Int)
    | '+' :: cs => (strtol_digits cs 0 : Int)
    | cs => (strtol_digits cs 0 : Int)
  max (-(2 ^ 63)) (min value (2 ^ 63 - 1))

/-- The `atoi` of the GNU C library, `(int) strtol(s, NULL, 10)`: the `long` is cut to a
32-bit two's complement `int`. -/
def atoi_glibc (s : String) : Int := (strtol s + 2 ^ 31) % 2 ^ 32 - 2 ^ 31

/-- The specification that `main` builds from its arguments (wordcount.cpp lines
200-209); `atoi` stands for the C library function. -/
def main_specification (atoi : String → Int) (argv : List String)
    (hardware_concurrency : Nat) : specification :=
  let argc := argv.length
  let spec := { specification.init with input_directory := argv.getD 1 "" }
  let spec :=
    if argc > 2 then { spec with map_tasks := (max 1 (atoi (argv.getD 2 ""))).toNat % 2 ^ 32 }
    else spec
  if argc > 3 then
    { spec with reduce_tasks := (max 1 (atoi (argv.getD 3 ""))).toNat % 2 ^ 32 }
  else { spec with reduce_tasks := max 1 hardware_concurrency }

/-- The function `main` (wordcount.cpp lines 191-232): `argv` holds the `argc` arguments,
`hardware_concurrency` is what `std::thread::hardware_concurrency()` returns, `atoi` is
the C library function, `job` and `job_combiner` are the two job types it runs,
`less_2nd` and `greater_2nd` the comparators handed on to `write_frequency_table`.  The
result is the exit code with what the two runs printed; `none` when a run dereferences an
iterator that denotes no element. -/
def main (argv : List String) (hardware_concurrency : Nat) (atoi : String → Int)
    (less_2nd greater_2nd : comparator) (job job_combiner : Job) :
    Option (Int × List wordcount_output) :=
  let argc := argv.length
  if argc < 2 then some (1, [])
  else
    let spec := main_specification atoi argv hardware_concurrency
    do
      let out ← run_wordcount less_2nd greater_2nd job spec
      let out_combiner ← run_wordcount less_2nd greater_2nd job_combiner spec
      pure (0, [out, out_combiner])

/-- The exit code of a run of `main`, when it has one. -/
def exit_code (r : Option (Int × List wordcount_output)) : Option Int := r.map Prod.fst

/-- A job that throws a `std::exception` whatever the specification. -/
def failing_job (what : String) : Job := fun _ => .error what

/-- A job that finishes with the given results and pairs whatever the specification. -/
def finishing_job (result : results) (pairs : List keyvalue_t) : Job :=
  fun _ => .ok (result, pairs)

/-- The loop invariant of `write_frequency_table`: the list is not empty and
`it_smallest` denotes one of its elements. -/
def frequency_inv (st : frequency_state) : Prop :=
  st.frequencies ≠ [] ∧
    match st.it_smallest.current with
    | .past_end => True
    | .node i => 0 < i ∧ i ≤ st.frequencies.length

/-- A job that finishes with one map time recorded when the input directory is `dir`,
and with no map time at all for any other directory (in both cases without result
pairs). -/
def dir_job : Job := fun spec =>
  if spec.input_directory = "dir" then .ok (results.ofTimes [1] [1], [])
  else .ok (results.ofTimes [] [], [])

/-- A job that, for the given specification, throws a `std::exception` or finishes with
at least one map time recorded. -/
def job_reports (job : Job) (spec : specification) : Prop :=
  match job spec with
  | .error _ => True
  | .ok (result, _) => result.map_times ≠ []

/-- Eleven words in key order with their counts: the first has the smallest count, the
tenth one of the largest, the eleventh a count in between. -/
def eleven_words : List keyvalue_t :=
  pairs_of [("a", 1), ("b", 3), ("c", 3), ("d", 3), ("e", 3), ("f", 3), ("g", 3), ("h", 3),
    ("i", 3), ("j", 3), ("k", 2)]

/-! ## Lemmas on `tolower`, `strncasecmp` and the lexicographic order -/

theorem tolower_eq_zero (c : Nat) : tolower c = 0 ↔ c = 0 := by
  unfold tolower; split <;> omega

theorem strncasecmp_succ (s1 s2 : List Nat) (n : Nat) :
    strncasecmp s1 s2 (n + 1) =
      if tolower (s1.headD 0) ≠ tolower (s2.headD 0) then
        (tolower (s1.headD 0) : Int) - (tolower (s2.headD 0) : Int)
      else if s1.headD 0 = 0 then 0
      else strncasecmp s1.tail s2.tail n := by
  simp only [strncasecmp]

/-- Swapping the two strings negates the result of `strncasecmp`. -/
theorem strncasecmp_swap (n : Nat) : ∀ s1 s2 : List Nat,
    strncasecmp s2 s1 n = - strncasecmp s1 s2 n := by
  induction n with
  | zero => intro s1 s2; simp [strncasecmp]
  | succ n ih =>
    intro s1 s2
    rw [strncasecmp_succ, strncasecmp_succ, ih s1.tail s2.tail]
    have h1 := tolower_eq_zero (s1.headD 0)
    have h2 := tolower_eq_zero (s2.headD 0)
    generalize s1.headD 0 = c1 at *
    generalize s2.headD 0 = c2 at *
    split_ifs <;> omega

theorem lex_lt_irrefl : ∀ l : List Nat, lex_lt l l = false
  | [] => rfl
  | a :: l => by simp [lex_lt, lex_lt_irrefl l]

theorem lex_lt_trans : ∀ l1 l2 l3 : List Nat,
    lex_lt l1 l2 = true → lex_lt l2 l3 = true → lex_lt l1 l3 = true
  | [], [], _ => by simp [lex_lt]
  | [], _ :: _, [] => by simp [lex_lt]
  | [], _ :: _, _ :: _ => by simp [lex_lt]
  | _ :: _, [], _ => by simp [lex_lt]
  | _ :: _, _ :: _, [] => by simp [lex_lt]
  | a :: l1, b :: l2, c :: l3 => by
    intro h12 h23
    simp only [lex_lt] at h12 h23 ⊢
    have ih := lex_lt_trans l1 l2 l3
    split_ifs at h12 h23 ⊢ <;> first | rfl | omega | (exact ih h12 h23)

theorem lex_lt_connected : ∀ l1 l2 : List Nat,
    lex_lt l1 l2 = false → lex_lt l2 l1 = false → l1 = l2
  | [], [] => by simp
  | [], _ :: _ => by simp [lex_lt]
  | _ :: _, [] => by simp [lex_lt]
  | a :: l1, b :: l2 => by
    intro h12 h21
    simp only [lex_lt] at h12 h21
    have ih := lex_lt_connected l1 l2
    split_ifs at h12 h21
    have : a = b := by omega
    subst this
    simp [ih h12 h21]

theorem normal_succ (s : List Nat) (n : Nat) :
    normal s (n + 1) =
      if s.headD 0 = 0 then 0 :: List.replicate n 0
      else tolower (s.headD 0) :: normal s.tail n := by
  simp only [normal, List.replicate_succ]

theorem lex_lt_replicate : ∀ a b : Nat,
    lex_lt (List.replicate a 0) (List.replicate b 0) = decide (a < b)
  | 0, 0 => by simp [lex_lt]
  | 0, b + 1 => by simp [lex_lt, List.replicate_succ]
  | a + 1, 0 => by simp [lex_lt, List.replicate_succ]
  | a + 1, b + 1 => by simp [lex_lt, List.replicate_succ, lex_lt_replicate a b]

/-- The body of `less` on raw bytes and lengths is the lexicographic comparison of the
canonical forms. -/
theorem less_core (n1 : Nat) : ∀ (n2 : Nat) (s1 s2 : List Nat),
    (if strncasecmp s1 s2 (min n1 n2) < 0 then true
      else if strncasecmp s1 s2 (min n1 n2) > 0 then false
      else decide (n1 < n2)) = lex_lt (normal s1 n1) (normal s2 n2) := by
  induction n1 with
  | zero =>
    intro n2 s1 s2
    cases n2 with
    | zero => simp [strncasecmp, normal, lex_lt]
    | succ m =>
      simp only [Nat.zero_min, strncasecmp, normal_succ]
      split_ifs <;> simp_all [normal, lex_lt]
  | succ k ih =>
    intro n2 s1 s2
    cases n2 with
    | zero =>
      simp only [Nat.min_zero, strncasecmp, normal_succ]
      split_ifs <;> simp_all [normal, lex_lt]
    | succ m =>
      rw [Nat.succ_min_succ, strncasecmp_succ, normal_succ, normal_succ]
      have h1 := tolower_eq_zero (s1.headD 0)
      have h2 := tolower_eq_zero (s2.headD 0)
      have hr := lex_lt_replicate (k + 1) (m + 1)
      simp only [List.replicate_succ] at hr
      have ih' := ih m s1.tail s2.tail
      generalize s1.headD 0 = c1 at *
      generalize s2.headD 0 = c2 at *
      by_cases hc : tolower c1 = tolower c2
      · by_cases hz : c1 = 0
        · have hz2 : c2 = 0 := by omega
          subst hz; subst hz2
          simpa using hr.symm
        · have hz2 : ¬ c2 = 0 := by omega
          simp only [hc, hz, hz2, ne_eq, not_true_eq_false, if_false, lex_lt, lt_irrefl,
            Nat.add_lt_add_iff_right]
          exact ih'
      · have : tolower c1 < tolower c2 ∨ tolower c2 < tolower c1 := by omega
        rcases this with hlt | hgt
        · have hneg : (tolower c1 : Int) - (tolower c2 : Int) < 0 := by omega
          have hz1 : ¬ (c1 = 0 ∧ c2 = 0) := by omega
          split_ifs <;> simp_all [lex_lt]
        · have hpos : ¬ (tolower c1 : Int) - (tolower c2 : Int) < 0 := by omega
          have hpos2 : (tolower c1 : Int) - (tolower c2 : Int) > 0 := by omega
          split_ifs <;> simp_all [lex_lt]

/-- The comparison `less` is the lexicographic order of the canonical forms. -/
theorem less_eq_lex_lt_normal (a b : Key) : less a b = lex_lt a.normal b.normal := by
  unfold less Key.normal
  exact less_core _ _ _ _

theorem cstr_zero (s : List Nat) : cstr s 0 = [] := by simp [cstr]

theorem cstr_succ (s : List Nat) (n : Nat) :
    cstr s (n + 1) = if s.headD 0 = 0 then [] else tolower (s.headD 0) :: cstr s.tail n := by
  rcases s with _ | ⟨a, t⟩
  · simp [cstr]
  · by_cases h : a = 0 <;> simp [cstr, List.takeWhile_cons, h]

/-- The sign of `strncasecmp` is the lexicographic comparison of the two strings cut at
their first NUL byte. -/
theorem cstr_core (n : Nat) : ∀ (s1 s2 : List Nat) (d : Bool),
    (if strncasecmp s1 s2 n < 0 then true
      else if strncasecmp s1 s2 n > 0 then false else d) =
    (lex_lt (cstr s1 n) (cstr s2 n) || (cstr s1 n == cstr s2 n && d)) := by
  induction n with
  | zero => intro s1 s2 d; simp [strncasecmp, cstr_zero, lex_lt]
  | succ n ih =>
    intro s1 s2 d
    rw [strncasecmp_succ, cstr_succ, cstr_succ]
    have h1 := tolower_eq_zero (s1.headD 0)
    have h2 := tolower_eq_zero (s2.headD 0)
    have ih' := ih s1.tail s2.tail d
    generalize s1.headD 0 = c1 at *
    generalize s2.headD 0 = c2 at *
    by_cases hc : tolower c1 = tolower c2
    · by_cases hz : c1 = 0
      · have hz2 : c2 = 0 := by omega
        subst hz; subst hz2
        simp [lex_lt]
      · have hz2 : ¬ c2 = 0 := by omega
        simp only [hc, hz, hz2, ne_eq, not_true_eq_false, if_false, lex_lt, lt_irrefl]
        rw [ih']
        simp
    · have : tolower c1 < tolower c2 ∨ tolower c2 < tolower c1 := by omega
      rcases this with hlt | hgt
      · have hneg : (tolower c1 : Int) - (tolower c2 : Int) < 0 := by omega
        have hz1 : ¬ (c1 = 0 ∧ c2 = 0) := by omega
        split_ifs <;> simp_all [lex_lt]
      · have hpos : ¬ (tolower c1 : Int) - (tolower c2 : Int) < 0 := by omega
        have hpos2 : (tolower c1 : Int) - (tolower c2 : Int) > 0 := by omega
        split_ifs <;> simp_all [lex_lt]

/-- The comparison `less` is `cstr_less` on every pair of keys. -/
theorem less_eq_cstr_less (a b : Key) : less a b = cstr_less a b := by
  unfold less cstr_less lowered_cstr
  exact cstr_core _ _ _ _

/-- Without a NUL byte among the first `n` bytes, `strncasecmp` looks at all of them. -/
theorem lowered_cstr_eq_lowered (k : Key) (n : Nat) (h : ∀ c ∈ k.mem.take n, c ≠ 0) :
    lowered_cstr k n = lowered k n := by
  unfold lowered_cstr cstr lowered
  congr 1
  rw [List.takeWhile_eq_self_iff]
  intro c hc
  simpa using h c hc

theorem min_position_reverse_lt (comp : keyvalue_t → keyvalue_t → Bool) :
    ∀ (l : List keyvalue_t) (k : Nat) (v : keyvalue_t),
      min_position_reverse comp l = some (k, v) → k < l.length
  | [], k, v => by simp [min_position_reverse]
  | x :: xs, k, v => by
    intro h
    simp only [min_position_reverse] at h
    cases hm : min_position_reverse comp xs with
    | none => rw [hm] at h; simp at h; simp [← h.1]
    | some p =>
      obtain ⟨k', v'⟩ := p
      have ih := min_position_reverse_lt comp xs k' v' hm
      rw [hm] at h
      simp only at h
      split_ifs at h <;> simp at h <;> simp [← h.1]
      omega

theorem min_element_reverse_inv (comp : keyvalue_t → keyvalue_t → Bool)
    (l : List keyvalue_t) (hl : l ≠ []) :
    frequency_inv { frequencies := l, it_smallest := min_element_reverse comp l } := by
  refine ⟨hl, ?_⟩
  unfold min_element_reverse
  cases hm : min_position_reverse comp l with
  | none => simp
  | some p =>
    obtain ⟨k, v⟩ := p
    have := min_position_reverse_lt comp l k v hm
    simp only
    split_ifs
    · trivial
    · simp only; omega

theorem deref_of_inv (st : frequency_state) (h : frequency_inv st) :
    ∃ v, st.it_smallest.deref st.frequencies = some v := by
  obtain ⟨hne, hc⟩ := h
  have hlen : 0 < st.frequencies.length := List.length_pos.mpr hne
  unfold reverse_iterator.deref reverse_iterator.position
  cases hcur : st.it_smallest.current with
  | past_end =>
    have : st.frequencies.length - 1 < st.frequencies.length := by omega
    simp [Nat.pos_iff_ne_zero.mp hlen, List.getElem?_eq_getElem this]
  | node i =>
    rw [hcur] at hc
    simp only at hc
    have : i - 1 < st.frequencies.length := by omega
    simp [hc, List.getElem?_eq_getElem this]

theorem assign_of_inv (st : frequency_state) (h : frequency_inv st) (v : keyvalue_t) :
    ∃ l, st.it_smallest.assign st.frequencies v = some l ∧ l ≠ [] ∧
      l.length = st.frequencies.length := by
  obtain ⟨hne, hc⟩ := h
  have hlen : 0 < st.frequencies.length := List.length_pos.mpr hne
  unfold reverse_iterator.assign reverse_iterator.position
  cases hcur : st.it_smallest.current with
  | past_end =>
    simp [Nat.pos_iff_ne_zero.mp hlen, hne]
  | node i =>
    rw [hcur] at hc
    simp only at hc
    simp [hc, hne]

theorem frequency_step_inv (less_2nd : comparator) (st : frequency_state) (it : keyvalue_t)
    (h : frequency_inv st) :
    ∃ st', frequency_step less_2nd st it = some st' ∧ frequency_inv st' ∧
      st'.frequencies.length =
        if st.frequencies.length < 10 then st.frequencies.length + 1
        else st.frequencies.length := by
  unfold frequency_step
  by_cases hlt : st.frequencies.length < 10
  · have hinv : frequency_inv
        { frequencies := st.frequencies ++ [it], it_smallest := st.it_smallest } := by
      refine ⟨by simp, ?_⟩
      have := h.2
      cases hcur : st.it_smallest.current with
      | past_end => simp [hcur]
      | node i => rw [hcur] at this; simp only [hcur, List.length_append] at this ⊢; omega
    obtain ⟨v, hv⟩ := deref_of_inv _ hinv
    simp only at hv
    simp only [hlt, if_true, hv, Option.bind_eq_bind, Option.some_bind, bind, pure]
    split_ifs
    · exact ⟨_, rfl, by simp [frequency_inv, rbegin], by simp⟩
    · exact ⟨_, rfl, hinv, by simp⟩
  · obtain ⟨v, hv⟩ := deref_of_inv st h
    simp only [hlt, if_false, hv, bind, Option.bind, pure]
    split_ifs
    · obtain ⟨l, hl, hne, hlen⟩ := assign_of_inv st h it
      simp only [hl]
      exact ⟨_, rfl, min_element_reverse_inv _ l hne, hlen⟩
    · exact ⟨st, rfl, h, rfl⟩

theorem frequency_loop_inv (less_2nd : comparator) :
    ∀ (rest : List keyvalue_t) (st : frequency_state),
    frequency_inv st → st.frequencies.length ≤ 10 →
      ∃ st', frequency_loop less_2nd rest st = some st' ∧ frequency_inv st' ∧
        st'.frequencies.length = min (st.frequencies.length + rest.length) 10
  | [], st, h, hle => ⟨st, rfl, h, by simp [hle]⟩
  | it :: rest, st, h, hle => by
    obtain ⟨st1, h1, hinv1, hlen1⟩ := frequency_step_inv less_2nd st it h
    have hle1 : st1.frequencies.length ≤ 10 := by rw [hlen1]; split_ifs <;> omega
    obtain ⟨st2, h2, hinv2, hlen2⟩ := frequency_loop_inv less_2nd rest st1 hinv1 hle1
    refine ⟨st2, by simp [frequency_loop, h1, h2], hinv2, ?_⟩
    rw [hlen2, hlen1, List.length_cons]
    split_ifs <;> omega

/-- The table is always produced, with `min n 10` entries: no reverse iterator that
denotes no element is dereferenced. -/
theorem write_frequency_table_some (less_2nd greater_2nd : comparator)
    (job : List keyvalue_t) :
    ∃ table, write_frequency_table less_2nd greater_2nd job = some table ∧
      table.length = min job.length 10 := by
  cases job with
  | nil => exact ⟨[], rfl, rfl⟩
  | cons first rest =>
    have hinv : frequency_inv { frequencies := [first], it_smallest := rbegin [first] } := by
      simp [frequency_inv, rbegin]
    obtain ⟨st, hst, _, hlen⟩ := frequency_loop_inv less_2nd rest _ hinv (by simp)
    refine ⟨list_sort greater_2nd st.frequencies, by simp [write_frequency_table, hst], ?_⟩
    simp only [list_sort, List.length_insertionSort, hlen, List.length_cons, List.length_nil]
    omega

theorem min_element_some (l : List ℚ) (h : l ≠ []) : ∃ x, min_element l = some x := by
  cases l with
  | nil => exact absurd rfl h
  | cons x xs => exact ⟨_, rfl⟩

theorem max_element_some (l : List ℚ) (h : l ≠ []) : ∃ x, max_element l = some x := by
  cases l with
  | nil => exact absurd rfl h
  | cons x xs => exact ⟨_, rfl⟩

theorem write_stats_some (result : results) (h : result.map_times ≠ []) :
    ∃ report, write_stats result = some report := by
  obtain ⟨a, ha⟩ := min_element_some _ h
  obtain ⟨b, hb⟩ := max_element_some _ h
  unfold write_stats
  by_cases hr : result.reduce_times.length > 0
  · have hne : result.reduce_times ≠ [] := List.length_pos.mp hr
    obtain ⟨c, hc⟩ := min_element_some _ hne
    obtain ⟨d, hd⟩ := max_element_some _ hne
    simp [ha, hb, hc, hd, hr]
  · simp [ha, hb, hr]

theorem run_wordcount_some (less_2nd greater_2nd : comparator) (job : Job)
    (spec : specification) (h : job_reports job spec) :
    ∃ out, run_wordcount less_2nd greater_2nd job spec = some out := by
  unfold run_wordcount
  unfold job_reports at h
  cases hj : job spec with
  | error what => exact ⟨_, rfl⟩
  | ok p =>
    obtain ⟨result, pairs⟩ := p
    rw [hj] at h
    obtain ⟨report, hrep⟩ := write_stats_some result h
    obtain ⟨table, htab, _⟩ := write_frequency_table_some less_2nd greater_2nd pairs
    simp [hrep, htab]

theorem exit_code_runs (o1 o2 : Option wordcount_output) :
    exit_code (do
      let out ← o1
      let out_combiner ← o2
      pure ((0 : Int), [out, out_combiner])) ≠ some 2 := by
  cases o1 <;> cases o2 <;> simp [exit_code]


/-! ## The claims -/

/-- C1 (counterexample): the keys `"\0a"` and `"\0b"`, both of length 2 and both valid,
compare as "not smaller" under `less`, because `strncasecmp` stops at the NUL byte they
share, while the comparison of the first two bytes ignoring case puts the first before
the second.  So `less` is not the stated comparison on every pair of keys. -/
theorem less_differs_from_spec_less_at_nul :
    (Key.mk (some [0, 97]) 2).valid ∧ (Key.mk (some [0, 98]) 2).valid ∧
    ¬ (less ⟨some [0, 97], 2⟩ ⟨some [0, 98], 2⟩ = true ↔
        spec_less ⟨some [0, 97], 2⟩ ⟨some [0, 98], 2⟩ = true) := by
  decide

/-- C1 (amended): for two keys whose first `min (len a) (len b)` bytes hold no NUL byte,
`less a b` is true exactly when, comparing those bytes ignoring case, the bytes of `a`
are smaller than those of `b`, or they are equal and `len a < len b`.  In particular
`less "Foo" "foo"` and `less "foo" "Foo"` are false and `less "ab" "abc"` is true. -/
theorem less_iff_spec_less (a b : Key)
    (ha : ∀ c ∈ a.mem.take (min a.second b.second), c ≠ 0)
    (hb : ∀ c ∈ b.mem.take (min a.second b.second), c ≠ 0) :
    (less a b = true ↔ spec_less a b = true) ∧
    less (Key.ofString "Foo") (Key.ofString "foo") = false ∧
    less (Key.ofString "foo") (Key.ofString "Foo") = false ∧
    less (Key.ofString "ab") (Key.ofString "abc") = true := by
  refine ⟨?_, by decide, by decide, by decide⟩
  rw [less_eq_cstr_less]
  unfold cstr_less spec_less
  simp only [lowered_cstr_eq_lowered a _ ha, lowered_cstr_eq_lowered b _ hb]

/-- C1 (witness): the amended statement at the keys `"aB"` and `"Abc"`, which hold no
NUL byte. -/
theorem less_iff_spec_less_witness :
    (∀ c ∈ (Key.ofString "aB").mem.take
        (min (Key.ofString "aB").second (Key.ofString "Abc").second), c ≠ 0) ∧
    (less (Key.ofString "aB") (Key.ofString "Abc") = true ↔
      spec_less (Key.ofString "aB") (Key.ofString "Abc") = true) :=
  ⟨by decide,
   (less_iff_spec_less (Key.ofString "aB") (Key.ofString "Abc") (by decide) (by decide)).1⟩

/-- C2: the comparison `less` is a strict weak ordering on all keys: it is irreflexive,
it is transitive, and incomparability (neither `less a b` nor `less b a`) is transitive. -/
theorem less_strict_weak_ordering :
    (∀ a : Key, less a a = false) ∧
    (∀ a b c : Key, less a b = true → less b c = true → less a c = true) ∧
    (∀ a b c : Key, (less a b = false ∧ less b a = false) →
      (less b c = false ∧ less c b = false) → (less a c = false ∧ less c a = false)) := by
  refine ⟨?_, ?_, ?_⟩
  · intro a
    rw [less_eq_lex_lt_normal]
    exact lex_lt_irrefl _
  · intro a b c hab hbc
    rw [less_eq_lex_lt_normal] at hab hbc ⊢
    exact lex_lt_trans _ _ _ hab hbc
  · intro a b c hab hbc
    simp only [less_eq_lex_lt_normal] at hab hbc ⊢
    have h1 := lex_lt_connected _ _ hab.1 hab.2
    have h2 := lex_lt_connected _ _ hbc.1 hbc.2
    rw [h1, h2]
    exact ⟨lex_lt_irrefl _, lex_lt_irrefl _⟩

/-- C2 (witness): transitivity at `"ab" < "abc" < "B"`, and the transitivity of
incomparability at `"Foo"`, `"foo"`, `"FOO"`. -/
theorem less_strict_weak_ordering_witness :
    less (Key.ofString "ab") (Key.ofString "B") = true ∧
    (less (Key.ofString "Foo") (Key.ofString "FOO") = false ∧
      less (Key.ofString "FOO") (Key.ofString "Foo") = false) :=
  ⟨less_strict_weak_ordering.2.1 (Key.ofString "ab") (Key.ofString "abc") (Key.ofString "B")
      (by decide) (by decide),
   less_strict_weak_ordering.2.2 (Key.ofString "Foo") (Key.ofString "foo")
      (Key.ofString "FOO") (by decide) (by decide)⟩

/-- C3 (the code at the failing input): the keys `"b"` and `"B"` are equal under
`operator_eq`, yet with three partitions and the hash of Boost the partitioner sends the
first to partition 2 and the second to partition 0: the hash runs over the raw bytes and
does not ignore case. -/
theorem hash_partitioner_separates_equal_keys :
    operator_eq (Key.ofString "b") (Key.ofString "B") = true ∧
    hash_partitioner boost_hash_range (Key.ofString "b") 3 = 2 ∧
    hash_partitioner boost_hash_range (Key.ofString "B") 3 = 0 := by
  decide

/-- C4: for every hash function, every key and every number of partitions from 1 up
(an `unsigned`, so below `2 ^ 32`), `hash_partitioner` returns the hash of the byte range
of the key modulo the number of partitions, an index below the number of partitions. -/
theorem hash_partitioner_mod (hash_range : List Nat → Nat) (key : Key) (partitions : Nat)
    (h1 : 1 ≤ partitions) (h32 : partitions < 2 ^ 32) :
    hash_partitioner hash_range key partitions = hash_range key.range % partitions ∧
    hash_partitioner hash_range key partitions < partitions := by
  have hlt : hash_range key.range % partitions < partitions := Nat.mod_lt _ (by omega)
  have heq : hash_partitioner hash_range key partitions = hash_range key.range % partitions := by
    unfold hash_partitioner
    exact Nat.mod_eq_of_lt (by omega)
  exact ⟨heq, heq ▸ hlt⟩

/-- C4 (witness): the key `"the"` over three partitions with the hash of Boost. -/
theorem hash_partitioner_mod_witness :
    (1 ≤ 3 ∧ 3 < 2 ^ 32) ∧
    hash_partitioner boost_hash_range (Key.ofString "the") 3 =
      boost_hash_range (Key.ofString "the").range % 3 ∧
    hash_partitioner boost_hash_range (Key.ofString "the") 3 < 3 :=
  ⟨by decide, hash_partitioner_mod boost_hash_range (Key.ofString "the") 3 (by decide) (by decide)⟩

/-- C5 (counterexample): with an input directory given and both jobs throwing a
`std::exception`, `main` returns exit code 0, not 2: `run_wordcount` catches the
exception, prints it and returns. -/
theorem main_failing_job_exit_zero :
    exit_code (main ["wordcount", "dir"] 4 atoi_glibc second_less second_greater
      (failing_job "cannot open") (failing_job "cannot open")) = some 0 ∧
    exit_code (main ["wordcount", "dir"] 4 atoi_glibc second_less second_greater
      (failing_job "cannot open") (failing_job "cannot open")) ≠ some 2 := by
  decide

/-- C5 (amended): `main` returns exit code 1 when `argc < 2`; with `argc ≥ 2` it returns
0 when each of its two jobs, run on the specification `main` builds, either throws a
`std::exception` or finishes with at least one map time recorded; and it returns 2 on no
input at all.  This holds whatever `atoi` and the two comparators return. -/
theorem main_exit_code (argv : List String) (hardware_concurrency : Nat)
    (atoi : String → Int) (less_2nd greater_2nd : comparator) (job job_combiner : Job) :
    (argv.length < 2 →
      exit_code (main argv hardware_concurrency atoi less_2nd greater_2nd job job_combiner)
        = some 1) ∧
    (2 ≤ argv.length →
      job_reports job (main_specification atoi argv hardware_concurrency) →
      job_reports job_combiner (main_specification atoi argv hardware_concurrency) →
      exit_code (main argv hardware_concurrency atoi less_2nd greater_2nd job job_combiner)
        = some 0) ∧
    exit_code (main argv hardware_concurrency atoi less_2nd greater_2nd job job_combiner)
      ≠ some 2 := by
  refine ⟨?_, ?_, ?_⟩
  · intro h
    simp [main, exit_code, h]
  · intro h h1 h2
    have hn : ¬ argv.length < 2 := by omega
    simp only [main, hn, if_false, exit_code]
    obtain ⟨o1, ho1⟩ := run_wordcount_some less_2nd greater_2nd job _ h1
    obtain ⟨o2, ho2⟩ := run_wordcount_some less_2nd greater_2nd job_combiner _ h2
    rw [ho1, ho2]
    rfl
  · simp only [main]
    split_ifs
    · simp [exit_code]
    · exact exit_code_runs _ _

/-- C5 (witness): no argument gives 1; the directory `dir` with one job that throws and
one that finishes there (and would record no map time elsewhere) gives 0. -/
theorem main_exit_code_witness :
    exit_code (main ["wordcount"] 4 atoi_glibc second_less second_greater
      (failing_job "cannot open") dir_job) = some 1 ∧
    (job_reports dir_job (main_specification atoi_glibc ["wordcount", "dir", "2"] 4) ∧
      exit_code (main ["wordcount", "dir", "2"] 4 atoi_glibc second_less second_greater
        (failing_job "cannot open") dir_job) = some 0) :=
  ⟨(main_exit_code ["wordcount"] 4 atoi_glibc second_less second_greater
      (failing_job "cannot open") dir_job).1 (by decide),
   by simp [job_reports, dir_job, main_specification, specification.init, results.ofTimes],
   (main_exit_code ["wordcount", "dir", "2"] 4 atoi_glibc second_less second_greater
      (failing_job "cannot open") dir_job).2.1 (by decide)
      trivial
      (by simp [job_reports, dir_job, main_specification, specification.init,
        results.ofTimes])⟩

/-- C6: a default-constructed `specification` has `map_tasks = 0`, `reduce_tasks = 1`,
`max_file_segment_size = 1048576 = 2 ^ 20` bytes, `output_filespec = "mapreduce_"` and an
empty `input_directory`. -/
theorem specification_init_values :
    specification.init.map_tasks = 0 ∧
    specification.init.reduce_tasks = 1 ∧
    specification.init.max_file_segment_size = 1048576 ∧
    specification.init.max_file_segment_size = 2 ^ 20 ∧
    specification.init.output_filespec = "mapreduce_" ∧
    specification.init.input_directory = "" := by
  refine ⟨rfl, rfl, rfl, by decide, rfl, rfl⟩

/-- C7 (the code at the failing input): with two map times of 1 s and one reduce time of
2 s, `write_stats` reports the map average 1 = 2/2, which is matched, and the reduce
average 1 = 2/2, the sum of the reduce times over the number of map times, where the
matched average of the reduce times is 2 = 2/1. -/
theorem write_stats_reduce_average_mismatch :
    (write_stats (results.ofTimes [1, 1] [2])).map (fun r => r.map_key_times.average)
      = some (matched_average [1, 1]) ∧
    (write_stats (results.ofTimes [1, 1] [2])).bind
      (fun r => r.reduce_key_times.map (fun t => t.average)) = some 1 ∧
    matched_average [2] = 2 := by
  refine ⟨?_, ?_, ?_⟩
  · simp [write_stats, results.ofTimes, min_element, max_element, matched_average]
  · simp [write_stats, results.ofTimes, min_element, max_element, sum]
  · simp [matched_average, sum]

/-- C8 (the code at the failing input): for eleven words with counts
1, 3, 3, 3, 3, 3, 3, 3, 3, 3, 2 and whatever the two comparators do, the counts of the
table printed are, as a multiset, 3 (nine times) and 1, while the ten largest counts are
3 (nine times) and 2: after the tenth pair `it_smallest` denotes the last element, whose
count 3 the eleventh pair does not exceed.  With comparators on `second` the table reads
3, 3, 3, 3, 3, 3, 3, 3, 3, 1. -/
theorem write_frequency_table_misses_top :
    (∀ less_2nd greater_2nd : comparator,
      (write_frequency_table less_2nd greater_2nd eleven_words).map
          (fun table => Multiset.ofList (table.map Prod.snd))
        = some (Multiset.ofList [3, 3, 3, 3, 3, 3, 3, 3, 3, 1])) ∧
    (write_frequency_table second_less second_greater eleven_words).map (List.map Prod.snd)
      = some [3, 3, 3, 3, 3, 3, 3, 3, 3, 1] ∧
    largest_counts 10 eleven_words = [3, 3, 3, 3, 3, 3, 3, 3, 3, 2] ∧
    Multiset.ofList [3, 3, 3, 3, 3, 3, 3, 3, 3, 1]
      ≠ Multiset.ofList (largest_counts 10 eleven_words) := by
  refine ⟨?_, by decide, by decide, by decide⟩
  intro less_2nd greater_2nd
  have hloop : frequency_loop less_2nd eleven_words.tail
      { frequencies := eleven_words.take 1, it_smallest := rbegin (eleven_words.take 1) }
      = some { frequencies := eleven_words.take 10, it_smallest := { current := .past_end } } := by
    rfl
  have hrun : write_frequency_table less_2nd greater_2nd eleven_words
      = (frequency_loop less_2nd eleven_words.tail
          { frequencies := eleven_words.take 1,
            it_smallest := rbegin (eleven_words.take 1) }).map
        (fun st => list_sort greater_2nd st.frequencies) := rfl
  rw [hloop] at hrun
  rw [hrun]
  simp only [Option.map_some', Option.some.injEq, Multiset.coe_eq_coe]
  exact ((List.perm_insertionSort _ _).map Prod.snd).trans (by decide)

/-- C9: for two keys with non-null pointers, `operator_eq a b` holds exactly when
neither `less a b` nor `less b a` holds. -/
theorem operator_eq_iff_not_less (a b : Key) (ha : a.first ≠ none) (hb : b.first ≠ none) :
    operator_eq a b = true ↔ (less a b = false ∧ less b a = false) := by
  have hswap := strncasecmp_swap (min a.second b.second) a.mem b.mem
  simp only [operator_eq, less, Nat.min_comm b.second a.second, hswap]
  by_cases hlen : a.second = b.second
  · have hmin : min a.second b.second = a.second := by omega
    rw [hmin]
    simp only [hlen, ne_eq, not_true_eq_false, if_false, ha, hb, and_false, lt_irrefl,
      decide_False]
    generalize strncasecmp a.mem b.mem b.second = c
    split_ifs <;> simp <;> omega
  · simp only [ne_eq, hlen, not_false_eq_true, if_true]
    generalize strncasecmp a.mem b.mem (min a.second b.second) = c
    split_ifs <;> simp <;> omega

/-- C9 (witness): the keys `"b"` and `"B"`, equal and incomparable. -/
theorem operator_eq_iff_not_less_witness :
    ((Key.ofString "b").first ≠ none ∧ (Key.ofString "B").first ≠ none) ∧
    (operator_eq (Key.ofString "b") (Key.ofString "B") = true ↔
      (less (Key.ofString "b") (Key.ofString "B") = false ∧
        less (Key.ofString "B") (Key.ofString "b") = false)) :=
  ⟨by decide, operator_eq_iff_not_less (Key.ofString "b") (Key.ofString "B")
    (by decide) (by decide)⟩

/-- C10 (the code at the failing input): for results with no map time (a job over an
empty input directory), whatever the reduce times, `write_stats` dereferences the `end()`
that `min_element` returns for the map times: the map statistics are not guarded by a
size test as the reduce statistics are. -/
theorem write_stats_empty_map_times :
    min_element (results.ofTimes [] []).map_times = none ∧
    ∀ reduce_times : List ℚ, write_stats (results.ofTimes [] reduce_times) = none := by
  refine ⟨rfl, ?_⟩
  intro reduce_times
  rfl

/-! ## Further properties of the code -/

/-- The comparison `less` on every pair of keys: it holds exactly when, comparing
the first `min (len a) (len b)` bytes of each key up to its first NUL byte and ignoring
case, the bytes of `a` are smaller than those of `b`, or they are equal and
`len a < len b`. -/
theorem less_iff_cstr_less (a b : Key) : less a b = true ↔ cstr_less a b = true := by
  rw [less_eq_cstr_less]

/-- The function `write_frequency_table` never dereferences a reverse iterator that
denotes no element, and for `n` result pairs the table it prints has `min n 10` entries,
whatever the two comparators do. -/
theorem write_frequency_table_length (less_2nd greater_2nd : comparator)
    (job : List keyvalue_t) :
    ∃ table, write_frequency_table less_2nd greater_2nd job = some table ∧
      table.length = min job.length 10 :=
  write_frequency_table_some less_2nd greater_2nd job

end mapreduce
